import Mathlib

/-!
Verification of the Huffman archiver core.

The development shallowly embeds the `HuffmanCoding` class of
`Лабораторная 2/huffman.py` (and its second copy in `Лабораторная 2/main.py`)
into Lean:

* byte buffers are `List Nat` (each entry `< 256` on real inputs);
* Python bit strings of the characters `'0'`/`'1'` are `List Bool`
  (`false` for `'0'`, `true` for `'1'`);
* Python dicts are association lists (`List (key × value)`) together with
  the update/insert and lookup operations used by the source;
* the CPython `heapq` module, which the source imports, is embedded
  faithfully (`heappush`, `heappop` with the `_siftdown` / `_siftup`
  loops of `Lib/heapq.py`), with node comparison given by
  `HeapNode.__lt__`, i.e. comparison of frequencies only;
* file I/O is abstracted away: `compress` returns the archive value it
  would write, `decompress` consumes an archive value; the
  `pickle.dumps`/`pickle.loads` pair used for the reverse mapping is
  modelled as the identity on the mapping (the archive carries the
  mapping itself), since `decompress` only ever reads it back through
  `pickle.loads`;
* the "Файл пустой!" early return of `compress` is the `emptyInput`
  outcome, the `exit(0)` in `get_byte_array` is the `packingAlignment`
  outcome, and the unreachable `root is None` early return is `noTree`.
-/

namespace Huff

/-- Outcomes of the failing branches of the source. -/
inductive HuffErr where
  | emptyInput
  | packingAlignment
  | noTree
deriving DecidableEq, Repr

/-- `HeapNode` of `huffman.py`: `char` is `None` exactly on merged
(internal) nodes, which always have both children; leaves have no
children.  These are the only shapes the source ever constructs. -/
inductive HeapNode where
  | leaf (char : Nat) (freq : Nat)
  | internal (freq : Nat) (left right : HeapNode)
deriving DecidableEq, Repr, Inhabited

/-- The `freq` attribute of a `HeapNode`. -/
def HeapNode.freq : HeapNode → Nat
  | .leaf _ f => f
  | .internal f _ _ => f

/-- `HeapNode.__lt__`: comparison by frequency only. -/
def nodeLt (a b : HeapNode) : Prop := a.freq < b.freq

instance (a b : HeapNode) : Decidable (nodeLt a b) := Nat.decLt _ _

/-- Association-list lookup, modelling Python `d[k]` / `k in d`. -/
def alookup {α β : Type} [DecidableEq α] : List (α × β) → α → Option β
  | [], _ => none
  | (k, v) :: rest, key => if key = k then some v else alookup rest key

/-- Python dict assignment `d[k] = v`: update in place if the key is
present, append otherwise. -/
def dictUpd {α β : Type} [DecidableEq α] (d : List (α × β)) (k : α) (v : β) :
    List (α × β) :=
  match alookup d k with
  | some _ => d.map (fun p => if p.1 = k then (k, v) else p)
  | none => d ++ [(k, v)]

/-- Build a Python dict from a sequence of assignments. -/
def dictOf {α β : Type} [DecidableEq α] (entries : List (α × β)) : List (α × β) :=
  entries.foldl (fun d p => dictUpd d p.1 p.2) []

/-- One step of `collections.Counter`: count one more occurrence of `c`.
A new key is appended, so iteration order is first-occurrence order. -/
def dictIncr (d : List (Nat × Nat)) (c : Nat) : List (Nat × Nat) :=
  match alookup d c with
  | some n => d.map (fun p => if p.1 = c then (c, n + 1) else p)
  | none => d ++ [(c, 1)]

/-- `make_frequency_dict`, i.e. `Counter(text)` with items in
first-occurrence order. -/
def make_frequency_dict (text : List Nat) : List (Nat × Nat) :=
  text.foldl dictIncr []

/-! ### CPython `heapq`

The loops of `_siftdown` and `_siftup` are translated with an explicit
fuel argument; the callers hand them enough fuel for the loops to run to
completion (`_siftdown` moves `pos` strictly down towards `startpos`,
`_siftup` moves `pos` strictly up towards `len(heap)`), so the
out-of-fuel base case, which exits the loop early, is never reached on
the calls the source performs. -/

/-- The `while pos > startpos` loop of `heapq._siftdown`. -/
def siftdownLoop : Nat → List HeapNode → Nat → Nat → HeapNode → List HeapNode
  | 0, heap, _, pos, newitem => heap.set pos newitem
  | fuel + 1, heap, startpos, pos, newitem =>
    if startpos < pos then
      let parentpos := (pos - 1) / 2
      let parent := heap.getD parentpos default
      if newitem.freq < parent.freq then
        siftdownLoop fuel (heap.set pos parent) startpos parentpos newitem
      else
        heap.set pos newitem
    else
      heap.set pos newitem

/-- `heapq._siftdown heap startpos pos` (reads `newitem = heap[pos]`). -/
def siftdown (heap : List HeapNode) (startpos pos : Nat) : List HeapNode :=
  siftdownLoop pos heap startpos pos (heap.getD pos default)

/-- The `while childpos < endpos` loop of `heapq._siftup`, followed by
the final write of `newitem` and the closing `_siftdown` call. -/
def siftupLoop : Nat → List HeapNode → Nat → Nat → HeapNode → List HeapNode
  | 0, heap, startpos, pos, newitem =>
    siftdownLoop pos (heap.set pos newitem) startpos pos newitem
  | fuel + 1, heap, startpos, pos, newitem =>
    let endpos := heap.length
    let childpos := 2 * pos + 1
    if childpos < endpos then
      let rightpos := childpos + 1
      let childpos :=
        if rightpos < endpos ∧
            ¬ (heap.getD childpos default).freq < (heap.getD rightpos default).freq
        then rightpos else childpos
      siftupLoop fuel (heap.set pos (heap.getD childpos default)) startpos childpos newitem
    else
      siftdownLoop pos (heap.set pos newitem) startpos pos newitem

/-- `heapq._siftup heap pos` (reads `newitem = heap[pos]`,
`startpos = pos`). -/
def siftup (heap : List HeapNode) (pos : Nat) : List HeapNode :=
  siftupLoop heap.length heap pos pos (heap.getD pos default)

/-- `heapq.heappush`. -/
def heappush (heap : List HeapNode) (item : HeapNode) : List HeapNode :=
  siftdownLoop heap.length (heap ++ [item]) 0 heap.length item

/-- `heapq.heappop`: `none` models the `IndexError` on an empty heap
(never hit by the source). -/
def heappop (heap : List HeapNode) : Option (HeapNode × List HeapNode) :=
  match heap.getLast? with
  | none => none
  | some lastelt =>
    let rest := heap.dropLast
    if rest.isEmpty then some (lastelt, [])
    else some (rest.getD 0 default, siftup (rest.set 0 lastelt) 0)

/-- `build_heap`: push one leaf per `(char, freq)` item of the
frequency dict, in iteration order. -/
def build_heap (frequency : List (Nat × Nat)) : List HeapNode :=
  frequency.foldl (fun heap p => heappush heap (HeapNode.leaf p.1 p.2)) []

/-- The `while len(heap) > 1` loop of `build_tree`, with fuel; the heap
shrinks by one node per iteration, so fuel `heap.length` always
suffices. Returns `heap[0] if heap else None` at loop exit. -/
def buildTreeLoop : Nat → List HeapNode → Option HeapNode
  | 0, heap => heap.head?
  | fuel + 1, heap =>
    if 1 < heap.length then
      match heappop heap with
      | none => none
      | some (node1, heap1) =>
        match heappop heap1 with
        | none => none
        | some (node2, heap2) =>
          buildTreeLoop fuel
            (heappush heap2 (HeapNode.internal (node1.freq + node2.freq) node1 node2))
    else
      heap.head?

/-- `build_tree`. -/
def build_tree (heap : List HeapNode) : Option HeapNode :=
  buildTreeLoop heap.length heap

/-- `make_codes_helper`, returning the `(char, code)` pairs in the order
the two dict assignments are executed (left subtree first). -/
def make_codes_helper : HeapNode → List Bool → List (Nat × List Bool)
  | .leaf c _, current_code => [(c, current_code)]
  | .internal _ l r, current_code =>
    make_codes_helper l (current_code ++ [false]) ++
      make_codes_helper r (current_code ++ [true])

/-- The `self.codes` dict after `make_codes root`. -/
def codes_dict (root : HeapNode) : List (Nat × List Bool) :=
  dictOf (make_codes_helper root [])

/-- The `self.reverse_mapping` dict after `make_codes root`. -/
def reverse_dict (root : HeapNode) : List (List Bool × Nat) :=
  dictOf ((make_codes_helper root []).map (fun p => (p.2, p.1)))

/-- `get_encoded_text`: concatenate the codeword of each input byte.
On the compress path every byte of `text` is a key of `codes`, so the
`KeyError` that `self.codes[char]` would raise on a missing key cannot
occur; a missing key is rendered as the empty code. -/
def get_encoded_text (codes : List (Nat × List Bool)) (text : List Nat) :
    List Bool :=
  text.foldl (fun acc c => acc ++ ((alookup codes c).getD [])) []

/-- `pad_encoded_text`: append `extra_padding` zero bits, prepend the
8-bit big-endian pad count. -/
def natToBits : Nat → Nat → List Bool
  | 0, _ => []
  | w + 1, n => natToBits w (n / 2) ++ [n % 2 == 1]

/-- `int(bits, 2)` on a bit string. -/
def bitsToNat (bits : List Bool) : Nat :=
  bits.foldl (fun acc b => 2 * acc + (if b then 1 else 0)) 0

def pad_encoded_text (encoded_text : List Bool) : List Bool :=
  let extra0 := 8 - encoded_text.length % 8
  let extra_padding := if extra0 = 8 then 0 else extra0
  natToBits 8 extra_padding ++ encoded_text ++ List.replicate extra_padding false

/-- The `for i in range(0, len, 8)` slicing loop of `get_byte_array`,
with fuel (one unit per produced byte, so `bits.length` always
suffices). -/
def chunksLoop : Nat → List Bool → List (List Bool)
  | 0, _ => []
  | fuel + 1, bits =>
    if bits.isEmpty then []
    else bits.take 8 :: chunksLoop fuel (bits.drop 8)

/-- `get_byte_array`: the misalignment check (`print` + `exit(0)`)
followed by MSB-first packing into bytes. -/
def get_byte_array (padded_encoded_text : List Bool) :
    Except HuffErr (List Nat) :=
  if padded_encoded_text.length % 8 ≠ 0 then .error .packingAlignment
  else .ok ((chunksLoop padded_encoded_text.length padded_encoded_text).map bitsToNat)

/-- The archive `compress` writes.  `stored` is the `b'HUFF0'` framing
(raw bytes follow the marker); `coded` is the `b'HUFF1'` framing, whose
pickled `reverse_mapping` blob is modelled by the mapping itself and
whose `payload` is the packed byte array (first byte = pad count). -/
inductive Archive where
  | stored (data : List Nat)
  | coded (table : List (List Bool × Nat)) (payload : List Nat)
deriving DecidableEq, Repr

instance {ε α : Type} [DecidableEq ε] [DecidableEq α] : DecidableEq (Except ε α) :=
  fun a b =>
    match a, b with
    | .error e₁, .error e₂ =>
      if h : e₁ = e₂ then .isTrue (by rw [h]) else .isFalse (by intro hc; cases hc; exact h rfl)
    | .error _, .ok _ => .isFalse (by intro hc; cases hc)
    | .ok _, .error _ => .isFalse (by intro hc; cases hc)
    | .ok v₁, .ok v₂ =>
      if h : v₁ = v₂ then .isTrue (by rw [h]) else .isFalse (by intro hc; cases hc; exact h rfl)

/-- The bytes of a `stored` archive: marker `b'HUFF0'` then the raw
input. -/
def stored_bytes (data : List Nat) : List Nat :=
  [72, 85, 70, 70, 48] ++ data

/-- The `encoded_bits` accumulation inside `compress`. -/
def encoded_bits_of (codes : List (Nat × List Bool)) (frequency : List (Nat × Nat)) :
    Nat :=
  (frequency.map (fun p => ((alookup codes p.1).getD []).length * p.2)).sum

/-- `total_compressed_bits` of `compress`:
`encoded_bits + len(frequency) * (8 + 16) + 100`. -/
def total_compressed_bits (codes : List (Nat × List Bool))
    (frequency : List (Nat × Nat)) : Nat :=
  encoded_bits_of codes frequency + frequency.length * (8 + 16) + 100

/-- `compress`, returning the archive written to the output file. -/
def compress (text : List Nat) : Except HuffErr Archive :=
  if text.length = 0 then .error .emptyInput
  else
    let frequency := make_frequency_dict text
    let heap := build_heap frequency
    match build_tree heap with
    | none => .error .noTree
    | some root =>
      let codes := codes_dict root
      if total_compressed_bits codes frequency ≥ text.length * 8 then
        .ok (.stored text)
      else
        let encoded_text := get_encoded_text codes text
        let padded_encoded_text := pad_encoded_text encoded_text
        match get_byte_array padded_encoded_text with
        | .error e => .error e
        | .ok b => .ok (.coded (reverse_dict root) b)

/-- `remove_padding`. -/
def remove_padding (padded_encoded_text : List Bool) : List Bool :=
  let padded_info := padded_encoded_text.take 8
  let extra_padding := bitsToNat padded_info
  let rest := padded_encoded_text.drop 8
  if extra_padding > 0 then rest.take (rest.length - extra_padding) else rest

/-- The loop of `decode_text`, returning the decoded bytes together with
the final value of `current_code` (the leftover accumulator, which the
source discards). -/
def decodeLoop (reverse_mapping : List (List Bool × Nat)) :
    List Bool → List Bool → List Nat → List Nat × List Bool
  | [], current_code, decoded => (decoded, current_code)
  | bit :: rest, current_code, decoded =>
    let cur := current_code ++ [bit]
    match alookup reverse_mapping cur with
    | some char => decodeLoop reverse_mapping rest [] (decoded ++ [char])
    | none => decodeLoop reverse_mapping rest cur decoded

/-- `decode_text`: greedy decoding; any leftover accumulator at end of
input is silently dropped. -/
def decode_text (reverse_mapping : List (List Bool × Nat)) (encoded_text : List Bool) :
    List Nat :=
  (decodeLoop reverse_mapping encoded_text [] []).1

/-- The leftover accumulator `decode_text` ends with (and discards). -/
def decode_leftover (reverse_mapping : List (List Bool × Nat))
    (encoded_text : List Bool) : List Bool :=
  (decodeLoop reverse_mapping encoded_text [] []).2

/-- `decompress`, on the archive value `compress` wrote.  The `stored`
marker leads to a verbatim copy; the `coded` marker expands the payload
bytes MSB-first (`bin(byte)[2:].rjust(8, '0')`), strips the padding and
greedily decodes.  The unknown-marker early return cannot arise on a
well-typed `Archive` value. -/
def decompress (archive : Archive) : List Nat :=
  match archive with
  | .stored data => data
  | .coded table payload =>
    let bit_string := payload.foldl (fun acc b => acc ++ natToBits 8 b) []
    let encoded_text := remove_padding bit_string
    decode_text table encoded_text

/-- The code table produced by running the compress pipeline on a
frequency table (empty when the tree is absent, i.e. on an empty
frequency table). -/
def codes_list_from (frequency : List (Nat × Nat)) : List (Nat × List Bool) :=
  match build_tree (build_heap frequency) with
  | some root => make_codes_helper root []
  | none => []

/-- The `self.codes` dict obtained from a frequency table. -/
def codes_dict_from (frequency : List (Nat × Nat)) : List (Nat × List Bool) :=
  dictOf (codes_list_from frequency)

/-- The `self.reverse_mapping` dict obtained from a frequency table. -/
def reverse_dict_from (frequency : List (Nat × Nat)) : List (List Bool × Nat) :=
  dictOf ((codes_list_from frequency).map (fun p => (p.2, p.1)))

end Huff

/-!
### The second copy of the core

`Лабораторная 2/main.py` ships a second `HuffmanCoding` class.  Its
methods are translated below, one Lean definition per method, exactly as
the methods of `huffman.py` were.  The per-language infrastructure that
both files share — the imported `heapq` module, `collections.Counter`,
dicts, `int(·, 2)` / `"{0:08b}".format` — is the same Python runtime in
both, so the corresponding model definitions (`Huff.heappush`,
`Huff.heappop`, `Huff.make_frequency_dict`, `Huff.alookup`,
`Huff.dictOf`, `Huff.natToBits`, `Huff.bitsToNat`) are reused, as are
the value types `HeapNode`, `Archive` and `HuffErr`.
-/

namespace MainPy

open Huff

/-- `build_heap` of `main.py`. -/
def build_heap (frequency : List (Nat × Nat)) : List HeapNode :=
  frequency.foldl (fun heap p => heappush heap (HeapNode.leaf p.1 p.2)) []

/-- The `while len(heap) > 1` loop of `build_tree` of `main.py`. -/
def buildTreeLoop : Nat → List HeapNode → Option HeapNode
  | 0, heap => heap.head?
  | fuel + 1, heap =>
    if 1 < heap.length then
      match heappop heap with
      | none => none
      | some (node1, heap1) =>
        match heappop heap1 with
        | none => none
        | some (node2, heap2) =>
          buildTreeLoop fuel
            (heappush heap2 (HeapNode.internal (node1.freq + node2.freq) node1 node2))
    else
      heap.head?

/-- `build_tree` of `main.py`. -/
def build_tree (heap : List HeapNode) : Option HeapNode :=
  buildTreeLoop heap.length heap

/-- `make_codes_helper` of `main.py`. -/
def make_codes_helper : HeapNode → List Bool → List (Nat × List Bool)
  | .leaf c _, current_code => [(c, current_code)]
  | .internal _ l r, current_code =>
    make_codes_helper l (current_code ++ [false]) ++
      make_codes_helper r (current_code ++ [true])

/-- The `self.codes` dict of `main.py` after `make_codes root`. -/
def codes_dict (root : HeapNode) : List (Nat × List Bool) :=
  dictOf (make_codes_helper root [])

/-- The `self.reverse_mapping` dict of `main.py` after `make_codes root`. -/
def reverse_dict (root : HeapNode) : List (List Bool × Nat) :=
  dictOf ((make_codes_helper root []).map (fun p => (p.2, p.1)))

/-- `get_encoded_text` of `main.py`. -/
def get_encoded_text (codes : List (Nat × List Bool)) (text : List Nat) :
    List Bool :=
  text.foldl (fun acc c => acc ++ ((alookup codes c).getD [])) []

/-- `pad_encoded_text` of `main.py`. -/
def pad_encoded_text (encoded_text : List Bool) : List Bool :=
  let extra0 := 8 - encoded_text.length % 8
  let extra_padding := if extra0 = 8 then 0 else extra0
  natToBits 8 extra_padding ++ encoded_text ++ List.replicate extra_padding false

/-- The byte-slicing loop of `get_byte_array` of `main.py`. -/
def chunksLoop : Nat → List Bool → List (List Bool)
  | 0, _ => []
  | fuel + 1, bits =>
    if bits.isEmpty then []
    else bits.take 8 :: chunksLoop fuel (bits.drop 8)

/-- `get_byte_array` of `main.py`. -/
def get_byte_array (padded_encoded_text : List Bool) :
    Except HuffErr (List Nat) :=
  if padded_encoded_text.length % 8 ≠ 0 then .error .packingAlignment
  else .ok ((chunksLoop padded_encoded_text.length padded_encoded_text).map bitsToNat)

/-- The `encoded_bits` accumulation inside `compress` of `main.py`. -/
def encoded_bits_of (codes : List (Nat × List Bool)) (frequency : List (Nat × Nat)) :
    Nat :=
  (frequency.map (fun p => ((alookup codes p.1).getD []).length * p.2)).sum

/-- `total_compressed_bits` of `compress` of `main.py`. -/
def total_compressed_bits (codes : List (Nat × List Bool))
    (frequency : List (Nat × Nat)) : Nat :=
  encoded_bits_of codes frequency + frequency.length * (8 + 16) + 100

/-- `compress` of `main.py`. -/
def compress (text : List Nat) : Except HuffErr Archive :=
  if text.length = 0 then .error .emptyInput
  else
    let frequency := make_frequency_dict text
    let heap := build_heap frequency
    match build_tree heap with
    | none => .error .noTree
    | some root =>
      let codes := codes_dict root
      if total_compressed_bits codes frequency ≥ text.length * 8 then
        .ok (.stored text)
      else
        let encoded_text := get_encoded_text codes text
        let padded_encoded_text := pad_encoded_text encoded_text
        match get_byte_array padded_encoded_text with
        | .error e => .error e
        | .ok b => .ok (.coded (reverse_dict root) b)

/-- `remove_padding` of `main.py`. -/
def remove_padding (padded_encoded_text : List Bool) : List Bool :=
  let padded_info := padded_encoded_text.take 8
  let extra_padding := bitsToNat padded_info
  let rest := padded_encoded_text.drop 8
  if extra_padding > 0 then rest.take (rest.length - extra_padding) else rest

/-- The loop of `decode_text` of `main.py`. -/
def decodeLoop (reverse_mapping : List (List Bool × Nat)) :
    List Bool → List Bool → List Nat → List Nat × List Bool
  | [], current_code, decoded => (decoded, current_code)
  | bit :: rest, current_code, decoded =>
    let cur := current_code ++ [bit]
    match alookup reverse_mapping cur with
    | some char => decodeLoop reverse_mapping rest [] (decoded ++ [char])
    | none => decodeLoop reverse_mapping rest cur decoded

/-- `decode_text` of `main.py`. -/
def decode_text (reverse_mapping : List (List Bool × Nat)) (encoded_text : List Bool) :
    List Nat :=
  (decodeLoop reverse_mapping encoded_text [] []).1

/-- `decompress` of `main.py`. -/
def decompress (archive : Archive) : List Nat :=
  match archive with
  | .stored data => data
  | .coded table payload =>
    let bit_string := payload.foldl (fun acc b => acc ++ natToBits 8 b) []
    let encoded_text := remove_padding bit_string
    decode_text table encoded_text

end MainPy

namespace Huff

/-!
### Concrete example values

`exText` is a 32-byte buffer over the three symbols `A` (`0x41`,
16 occurrences), `B` (`0x42`, 8) and `C` (`0x43`, 8), arranged so that
the Coded archive `compress` produces for it has a 7-byte packed
payload whose last byte starts in the middle of a codeword.  `exTable`
and `exPayload` are the reverse mapping and payload of that archive, as
computed by `compress`. -/

def exText : List Nat :=
  List.replicate 7 65 ++ [66] ++ List.replicate 8 67 ++ List.replicate 7 65 ++
    List.replicate 3 66 ++ [65, 66, 65] ++ List.replicate 3 66

def exTable : List (List Bool × Nat) :=
  [([false], 65), ([true, false], 66), ([true, true], 67)]

def exPayload : List Nat := [0, 1, 127, 255, 128, 169, 42]

/-- `a` is a prefix of `b` (possibly all of it). -/
def Pref (a b : List Bool) : Prop := ∃ s, a ++ s = b

instance (a b : List Bool) : Decidable (Pref a b) :=
  decidable_of_iff (b.take a.length = a)
    ⟨fun h => ⟨b.drop a.length, by nth_rewrite 1 [← h]; exact List.take_append_drop _ b⟩,
     fun ⟨s, hs⟩ => by rw [← hs]; exact List.take_left a s⟩

/-! ### Padding lemmas -/

theorem length_natToBits (w n : Nat) : (natToBits w n).length = w := by
  induction w generalizing n with
  | zero => rfl
  | succ w ih => simp [natToBits, ih]

theorem bitsToNat_append_bit (l : List Bool) (b : Bool) :
    bitsToNat (l ++ [b]) = 2 * bitsToNat l + (if b then 1 else 0) := by
  simp [bitsToNat, List.foldl_append]

theorem bitsToNat_natToBits (w n : Nat) (h : n < 2 ^ w) :
    bitsToNat (natToBits w n) = n := by
  induction w generalizing n with
  | zero =>
    have h0 : n = 0 := by rw [pow_zero] at h; omega
    subst h0
    rfl
  | succ w ih =>
    have hdiv : n / 2 < 2 ^ w := by
      have h2 : n < 2 * 2 ^ w := by rw [pow_succ] at h; omega
      exact Nat.div_lt_of_lt_mul h2
    have hmod := Nat.mod_two_eq_zero_or_one n
    have hrec := ih (n / 2) hdiv
    rw [natToBits, bitsToNat_append_bit, hrec]
    rcases hmod with h0 | h1
    · simp [h0]
      omega
    · simp [h1]
      omega

/-- `extra_padding` equals `(8 - bitlen % 8) % 8`. -/
theorem pad_amount_eq (n : Nat) :
    (if 8 - n % 8 = 8 then 0 else 8 - n % 8) = (8 - n % 8) % 8 := by
  rcases Nat.lt_or_ge (n % 8) 8 with h | h
  · split <;> omega
  · have := Nat.mod_lt n (show 0 < 8 by norm_num)
    omega

theorem pad_encoded_text_eq (e : List Bool) :
    pad_encoded_text e =
      natToBits 8 ((8 - e.length % 8) % 8) ++ e ++
        List.replicate ((8 - e.length % 8) % 8) false := by
  rw [pad_encoded_text]
  rw [pad_amount_eq]

theorem pad_encoded_text_length (e : List Bool) :
    (pad_encoded_text e).length = 8 + e.length + (8 - e.length % 8) % 8 := by
  rw [pad_encoded_text_eq]
  simp [length_natToBits]
  omega

theorem pad_encoded_text_length_mod (e : List Bool) :
    (pad_encoded_text e).length % 8 = 0 := by
  rw [pad_encoded_text_length]
  omega

theorem pad_encoded_text_take (e : List Bool) :
    (pad_encoded_text e).take 8 = natToBits 8 ((8 - e.length % 8) % 8) := by
  rw [pad_encoded_text_eq, List.append_assoc]
  exact List.take_left' (length_natToBits 8 _)

theorem pad_count_read_eq_written (e : List Bool) :
    bitsToNat ((pad_encoded_text e).take 8) = (8 - e.length % 8) % 8 := by
  rw [pad_encoded_text_take, bitsToNat_natToBits]
  omega

theorem remove_padding_pad (e : List Bool) :
    remove_padding (pad_encoded_text e) = e := by
  have hdrop : (pad_encoded_text e).drop 8 =
      e ++ List.replicate ((8 - e.length % 8) % 8) false := by
    rw [pad_encoded_text_eq, List.append_assoc]
    exact List.drop_left' (length_natToBits 8 _)
  simp only [remove_padding, pad_count_read_eq_written, hdrop]
  rcases Nat.eq_zero_or_pos ((8 - e.length % 8) % 8) with h0 | hpos
  · rw [h0]
    simp
  · rw [if_pos hpos]
    have hlen : (e ++ List.replicate ((8 - e.length % 8) % 8) false).length -
        (8 - e.length % 8) % 8 = e.length := by
      simp
    rw [hlen]
    exact List.take_left' rfl

/-! ### Heap length lemmas -/

theorem siftdownLoop_length (fuel : Nat) :
    ∀ (heap : List HeapNode) (startpos pos : Nat) (newitem : HeapNode),
      (siftdownLoop fuel heap startpos pos newitem).length = heap.length := by
  induction fuel with
  | zero => intro heap s p n; simp [siftdownLoop]
  | succ fuel ih =>
    intro heap s p n
    simp only [siftdownLoop]
    split
    · split
      · rw [ih]
        simp
      · simp
    · simp

theorem siftupLoop_length (fuel : Nat) :
    ∀ (heap : List HeapNode) (startpos pos : Nat) (newitem : HeapNode),
      (siftupLoop fuel heap startpos pos newitem).length = heap.length := by
  induction fuel with
  | zero => intro heap s p n; simp [siftupLoop, siftdownLoop_length]
  | succ fuel ih =>
    intro heap s p n
    simp only [siftupLoop]
    split
    · rw [ih]
      simp
    · simp [siftdownLoop_length]

theorem siftup_length (heap : List HeapNode) (pos : Nat) :
    (siftup heap pos).length = heap.length := by
  simp [siftup, siftupLoop_length]

theorem heappush_length (heap : List HeapNode) (item : HeapNode) :
    (heappush heap item).length = heap.length + 1 := by
  simp [heappush, siftdownLoop_length]

theorem heappop_eq_some (heap : List HeapNode) (hne : heap ≠ []) :
    ∃ x rest, heappop heap = some (x, rest) ∧ rest.length + 1 = heap.length := by
  rw [heappop]
  rw [List.getLast?_eq_getLast heap hne]
  have hlen : heap.dropLast.length = heap.length - 1 := List.length_dropLast heap
  have hpos : 0 < heap.length := List.length_pos.mpr hne
  by_cases hrest : heap.dropLast.isEmpty
  · refine ⟨heap.getLast hne, [], ?_, ?_⟩
    · simp [hrest]
    · have : heap.dropLast.length = 0 := by
        rwa [List.isEmpty_iff_length_eq_zero] at hrest
      simp only [List.length_nil]
      omega
  · refine ⟨heap.dropLast.getD 0 default, siftup (heap.dropLast.set 0 (heap.getLast hne)) 0, ?_, ?_⟩
    · simp [hrest]
    · rw [siftup_length]
      simp only [List.length_set]
      have : heap.dropLast.length ≠ 0 := by
        intro h0
        rw [← List.isEmpty_iff_length_eq_zero] at h0
        exact hrest h0
      omega

/-! ### Frequency table and heap construction lemmas -/

theorem dictIncr_length_le (d : List (Nat × Nat)) (c : Nat) :
    d.length ≤ (dictIncr d c).length := by
  rw [dictIncr]
  split
  · simp
  · simp

theorem foldl_dictIncr_length (text : List Nat) :
    ∀ d : List (Nat × Nat), d.length ≤ (text.foldl dictIncr d).length := by
  induction text with
  | nil => intro d; simp
  | cons c rest ih =>
    intro d
    calc d.length ≤ (dictIncr d c).length := dictIncr_length_le d c
    _ ≤ (rest.foldl dictIncr (dictIncr d c)).length := ih _

theorem make_frequency_dict_ne_nil (text : List Nat) (hne : text ≠ []) :
    make_frequency_dict text ≠ [] := by
  match text with
  | [] => exact absurd rfl hne
  | c :: rest =>
    rw [make_frequency_dict, List.foldl_cons]
    have h1 : dictIncr [] c = [(c, 1)] := rfl
    rw [h1]
    have h2 := foldl_dictIncr_length rest [(c, 1)]
    intro h0
    rw [h0] at h2
    simp at h2

theorem build_heap_length (frequency : List (Nat × Nat)) :
    (build_heap frequency).length = frequency.length := by
  suffices h : ∀ acc : List HeapNode,
      (frequency.foldl (fun heap p => heappush heap (HeapNode.leaf p.1 p.2)) acc).length
        = acc.length + frequency.length by
    simpa using h []
  induction frequency with
  | nil => intro acc; simp
  | cons p rest ih =>
    intro acc
    rw [List.foldl_cons, ih, heappush_length]
    simp only [List.length_cons]
    omega

theorem buildTreeLoop_isSome (fuel : Nat) :
    ∀ heap : List HeapNode, heap ≠ [] → heap.length ≤ fuel →
      ∃ root, buildTreeLoop fuel heap = some root := by
  induction fuel with
  | zero =>
    intro heap hne hlen
    have := List.length_pos.mpr hne
    omega
  | succ fuel ih =>
    intro heap hne hlen
    rw [buildTreeLoop]
    by_cases hbig : 1 < heap.length
    · rw [if_pos hbig]
      obtain ⟨n1, h1, hp1, hl1⟩ := heappop_eq_some heap hne
      have h1ne : h1 ≠ [] := by
        intro h0
        rw [h0] at hl1
        simp at hl1
        omega
      obtain ⟨n2, h2, hp2, hl2⟩ := heappop_eq_some h1 h1ne
      simp only [hp1, hp2]
      apply ih
      · intro h0
        have := heappush_length h2 (HeapNode.internal (n1.freq + n2.freq) n1 n2)
        rw [h0] at this
        simp at this
      · rw [heappush_length]
        omega
    · rw [if_neg hbig]
      match heap, hne with
      | x :: t, _ => exact ⟨x, rfl⟩

theorem build_tree_isSome (heap : List HeapNode) (hne : heap ≠ []) :
    ∃ root, build_tree heap = some root :=
  buildTreeLoop_isSome heap.length heap hne (Nat.le_refl _)

/-! ### The heap operations permute the heap contents

The sift loops of `heapq` shift elements along a path and write the new
item once at the path's end, so each of `heappush` and `heappop` is, up
to order, insertion or removal of one element. -/

theorem set_cons_perm {α : Type} :
    ∀ (l : List α) (i : Nat) (a d : α), i < l.length →
      List.Perm (l.getD i d :: l.set i a) (a :: l) := by
  intro l
  induction l with
  | nil => intro i a d h; simp at h
  | cons x t ih =>
    intro i a d h
    match i with
    | 0 =>
      simp only [List.getD_cons_zero, List.set_cons_zero]
      exact List.Perm.swap a x t
    | j + 1 =>
      simp only [List.getD_cons_succ, List.set_cons_succ]
      have hj : j < t.length := by simp at h; omega
      have s1 : List.Perm (t.getD j d :: x :: t.set j a) (x :: t.getD j d :: t.set j a) :=
        List.Perm.swap x (t.getD j d) (t.set j a)
      have s2 : List.Perm (x :: t.getD j d :: t.set j a) (x :: a :: t) :=
        (ih j a d hj).cons x
      have s3 : List.Perm (x :: a :: t) (a :: x :: t) := List.Perm.swap a x t
      exact (s1.trans s2).trans s3

theorem set_getD_ne {α : Type} :
    ∀ (l : List α) (i j : Nat) (a d : α), i ≠ j →
      (l.set i a).getD j d = l.getD j d := by
  intro l
  induction l with
  | nil => intro i j a d h; simp
  | cons x t ih =>
    intro i j a d h
    match i, j with
    | 0, 0 => exact absurd rfl h
    | 0, k + 1 => simp
    | m + 1, 0 => simp
    | m + 1, k + 1 =>
      simp only [List.set_cons_succ, List.getD_cons_succ]
      exact ih m k a d (by omega)

theorem set_getD_self {α : Type} :
    ∀ (l : List α) (i : Nat) (a d : α), i < l.length →
      (l.set i a).getD i d = a := by
  intro l
  induction l with
  | nil => intro i a d h; simp at h
  | cons x t ih =>
    intro i a d h
    match i with
    | 0 => simp
    | j + 1 =>
      simp only [List.set_cons_succ, List.getD_cons_succ]
      exact ih j a d (by simp at h; omega)

theorem double_set_perm {α : Type} (l : List α) (p q : Nat) (a d : α)
    (hne : p ≠ q) (hp : p < l.length) (hq : q < l.length) :
    List.Perm ((l.set p (l.getD q d)).set q a) (l.set p a) := by
  have hq2 : q < (l.set p (l.getD q d)).length := by simpa using hq
  have h1 := set_cons_perm (l.set p (l.getD q d)) q a d hq2
  rw [set_getD_ne l p q (l.getD q d) d hne] at h1
  have h2 := set_cons_perm l p (l.getD q d) d hp
  have h3 := set_cons_perm l p a d hp
  have k1 : List.Perm
      (l.getD q d :: l.getD p d :: (l.set p (l.getD q d)).set q a)
      (l.getD p d :: l.getD q d :: (l.set p (l.getD q d)).set q a) :=
    List.Perm.swap (l.getD p d) (l.getD q d) _
  have k2 : List.Perm
      (l.getD p d :: l.getD q d :: (l.set p (l.getD q d)).set q a)
      (l.getD p d :: a :: l.set p (l.getD q d)) := h1.cons _
  have k3 : List.Perm
      (l.getD p d :: a :: l.set p (l.getD q d))
      (a :: l.getD p d :: l.set p (l.getD q d)) := List.Perm.swap a (l.getD p d) _
  have k4 : List.Perm
      (a :: l.getD p d :: l.set p (l.getD q d))
      (a :: l.getD q d :: l) := h2.cons a
  have k5 : List.Perm (a :: l.getD q d :: l) (l.getD q d :: a :: l) :=
    List.Perm.swap (l.getD q d) a l
  have k6 : List.Perm (l.getD q d :: a :: l)
      (l.getD q d :: l.getD p d :: l.set p a) := h3.symm.cons _
  have key := k1.trans (k2.trans (k3.trans (k4.trans (k5.trans k6))))
  exact (List.perm_cons _).mp ((List.perm_cons _).mp key)

theorem siftdownLoop_perm (fuel : Nat) :
    ∀ (heap : List HeapNode) (startpos pos : Nat) (newitem : HeapNode),
      pos < heap.length →
      List.Perm (siftdownLoop fuel heap startpos pos newitem) (heap.set pos newitem) := by
  induction fuel with
  | zero => intro heap s p n hp; exact List.Perm.refl _
  | succ fuel ih =>
    intro heap s p n hp
    simp only [siftdownLoop]
    split
    · split
      · rename_i hsp hlt
        have hppos : (p - 1) / 2 < p := by
          have := Nat.div_le_self (p - 1) 2
          omega
        have hpar : (p - 1) / 2 < (heap.set p (heap.getD ((p - 1) / 2) default)).length := by
          simp only [List.length_set]
          omega
        exact (ih _ s _ n hpar).trans
          (double_set_perm heap p ((p - 1) / 2) n default (by omega) hp (by omega))
      · exact List.Perm.refl _
    · exact List.Perm.refl _

theorem siftupLoop_perm (fuel : Nat) :
    ∀ (heap : List HeapNode) (startpos pos : Nat) (newitem : HeapNode),
      pos < heap.length →
      List.Perm (siftupLoop fuel heap startpos pos newitem) (heap.set pos newitem) := by
  induction fuel with
  | zero =>
    intro heap s p n hp
    have h1 := siftdownLoop_perm p (heap.set p n) s p n (by simpa using hp)
    rw [List.set_set] at h1
    exact h1
  | succ fuel ih =>
    intro heap s p n hp
    simp only [siftupLoop]
    split
    · rename_i hchild
      set cp := if 2 * p + 1 + 1 < heap.length ∧
          ¬ (heap.getD (2 * p + 1) default).freq < (heap.getD (2 * p + 1 + 1) default).freq
        then 2 * p + 1 + 1 else 2 * p + 1 with hcp
      have hcplt : cp < heap.length := by
        rw [hcp]
        split
        · rename_i hh; exact hh.1
        · exact hchild
      have hcpne : p ≠ cp := by
        rw [hcp]
        split <;> omega
      have hcp2 : cp < (heap.set p (heap.getD cp default)).length := by
        simpa using hcplt
      exact (ih _ s cp n hcp2).trans (double_set_perm heap p cp n default hcpne hp hcplt)
    · have h1 := siftdownLoop_perm p (heap.set p n) s p n (by simpa using hp)
      rw [List.set_set] at h1
      exact h1

theorem set_append_last {α : Type} :
    ∀ (l : List α) (x y : α), (l ++ [x]).set l.length y = l ++ [y] := by
  intro l
  induction l with
  | nil => intro x y; rfl
  | cons a t ih => intro x y; simp only [List.cons_append, List.length_cons,
      List.set_cons_succ, ih]

theorem heappush_perm (heap : List HeapNode) (item : HeapNode) :
    List.Perm (heappush heap item) (item :: heap) := by
  rw [heappush]
  have hp : heap.length < (heap ++ [item]).length := by simp
  have s1 := siftdownLoop_perm heap.length (heap ++ [item]) 0 heap.length item hp
  rw [set_append_last heap item item] at s1
  exact s1.trans List.perm_append_comm

theorem heappop_perm (heap : List HeapNode) (x : HeapNode) (rest : List HeapNode)
    (h : heappop heap = some (x, rest)) : List.Perm heap (x :: rest) := by
  have hne : heap ≠ [] := by
    intro h0
    rw [h0] at h
    simp [heappop] at h
  simp only [heappop, List.getLast?_eq_getLast heap hne] at h
  by_cases hrest : heap.dropLast.isEmpty
  · rw [if_pos hrest] at h
    simp only [Option.some.injEq, Prod.mk.injEq] at h
    obtain ⟨hx, hr⟩ := h
    have hemp : heap.dropLast = [] := List.isEmpty_iff.mp hrest
    have hheap : heap = [heap.getLast hne] := by
      conv_lhs => rw [← List.dropLast_append_getLast hne]
      rw [hemp]
      rfl
    rw [hheap, hx, ← hr]
  · rw [if_neg hrest] at h
    simp only [Option.some.injEq, Prod.mk.injEq] at h
    obtain ⟨hx, hr⟩ := h
    have hdne : heap.dropLast ≠ [] := by
      intro h0
      rw [← List.isEmpty_iff] at h0
      exact hrest h0
    have hdpos : 0 < heap.dropLast.length := List.length_pos.mpr hdne
    have hperm : List.Perm rest (heap.dropLast.set 0 (heap.getLast hne)) := by
      rw [← hr, siftup]
      have hg : (heap.dropLast.set 0 (heap.getLast hne)).getD 0 default =
          heap.getLast hne := set_getD_self _ 0 _ default hdpos
      rw [hg]
      have h1 := siftupLoop_perm (heap.dropLast.set 0 (heap.getLast hne)).length
        (heap.dropLast.set 0 (heap.getLast hne)) 0 0 (heap.getLast hne)
        (by simpa using hdpos)
      rw [List.set_set] at h1
      exact h1
    have hfront := set_cons_perm heap.dropLast 0 (heap.getLast hne) default hdpos
    have p1 : List.Perm heap (heap.getLast hne :: heap.dropLast) := by
      conv_lhs => rw [← List.dropLast_append_getLast hne]
      exact List.perm_append_comm
    have p2 : List.Perm (heap.getLast hne :: heap.dropLast)
        (heap.dropLast.getD 0 default :: heap.dropLast.set 0 (heap.getLast hne)) :=
      hfront.symm
    have p3 : List.Perm
        (heap.dropLast.getD 0 default :: heap.dropLast.set 0 (heap.getLast hne))
        (x :: rest) := by
      rw [hx]
      exact List.Perm.cons x hperm.symm
    exact p1.trans (p2.trans p3)

/-! ### The tree's leaves carry exactly the frequency table's symbols -/

/-- Symbols at the leaves of a node, in left-to-right order. -/
def leafChars : HeapNode → List Nat
  | .leaf c _ => [c]
  | .internal _ l r => leafChars l ++ leafChars r

/-- Symbols at the leaves of all nodes of a heap. -/
def heapChars : List HeapNode → List Nat
  | [] => []
  | n :: rest => leafChars n ++ heapChars rest

theorem heapChars_append (l₁ l₂ : List HeapNode) :
    heapChars (l₁ ++ l₂) = heapChars l₁ ++ heapChars l₂ := by
  induction l₁ with
  | nil => rfl
  | cons x t ih => simp [heapChars, ih]

theorem heapChars_perm {l₁ l₂ : List HeapNode} (h : List.Perm l₁ l₂) :
    List.Perm (heapChars l₁) (heapChars l₂) := by
  induction h with
  | nil => exact List.Perm.refl _
  | cons x _ ih => exact ih.append_left (leafChars x)
  | swap x y l =>
    show List.Perm (leafChars y ++ (leafChars x ++ heapChars l))
      (leafChars x ++ (leafChars y ++ heapChars l))
    rw [← List.append_assoc, ← List.append_assoc]
    exact List.Perm.append_right (heapChars l) List.perm_append_comm
  | trans _ _ ih₁ ih₂ => exact ih₁.trans ih₂

theorem buildTreeLoop_chars (fuel : Nat) :
    ∀ (heap : List HeapNode) (root : HeapNode), heap.length ≤ fuel →
      buildTreeLoop fuel heap = some root →
      List.Perm (leafChars root) (heapChars heap) := by
  induction fuel with
  | zero =>
    intro heap root hlen hloop
    match heap, hlen with
    | [], _ => simp [buildTreeLoop] at hloop
  | succ fuel ih =>
    intro heap root hlen hloop
    rw [buildTreeLoop] at hloop
    by_cases hbig : 1 < heap.length
    · rw [if_pos hbig] at hloop
      have hne : heap ≠ [] := by
        intro h0
        rw [h0] at hbig
        simp at hbig
      obtain ⟨n1, h1, hp1, hl1⟩ := heappop_eq_some heap hne
      have h1ne : h1 ≠ [] := by
        intro h0
        rw [h0] at hl1
        simp at hl1
        omega
      obtain ⟨n2, h2, hp2, hl2⟩ := heappop_eq_some h1 h1ne
      rw [hp1] at hloop
      simp only [] at hloop
      rw [hp2] at hloop
      simp only [] at hloop
      have hlen2 : (heappush h2 (HeapNode.internal (n1.freq + n2.freq) n1 n2)).length ≤ fuel := by
        rw [heappush_length]
        omega
      have hrec := ih _ root hlen2 hloop
      have hpushc := heapChars_perm
        (heappush_perm h2 (HeapNode.internal (n1.freq + n2.freq) n1 n2))
      have hpop1 := heapChars_perm (heappop_perm heap n1 h1 hp1)
      have hpop2 := heapChars_perm (heappop_perm h1 n2 h2 hp2)
      have step1 : List.Perm (leafChars root)
          (heapChars (HeapNode.internal (n1.freq + n2.freq) n1 n2 :: h2)) :=
        hrec.trans hpushc
      have step2 : heapChars (HeapNode.internal (n1.freq + n2.freq) n1 n2 :: h2) =
          (leafChars n1 ++ leafChars n2) ++ heapChars h2 := rfl
      have step3 : List.Perm (heapChars heap) (leafChars n1 ++ heapChars h1) := hpop1
      have step4 : List.Perm (leafChars n1 ++ heapChars h1)
          (leafChars n1 ++ (leafChars n2 ++ heapChars h2)) :=
        hpop2.append_left (leafChars n1)
      rw [step2] at step1
      rw [List.append_assoc] at step1
      exact step1.trans (step4.symm.trans step3.symm)
    · rw [if_neg hbig] at hloop
      match heap, hloop with
      | x :: t, hloop =>
        have hx : root = x := by
          simp [List.head?] at hloop
          exact hloop.symm
        have ht : t = [] := by
          simp at hbig
          match t, hbig with
          | [], _ => rfl
        subst hx
        subst ht
        simp [heapChars]

theorem build_tree_chars (heap : List HeapNode) (root : HeapNode)
    (h : build_tree heap = some root) :
    List.Perm (leafChars root) (heapChars heap) :=
  buildTreeLoop_chars heap.length heap root (Nat.le_refl _) h

theorem build_heap_chars (frequency : List (Nat × Nat)) :
    List.Perm (heapChars (build_heap frequency)) (frequency.map Prod.fst) := by
  suffices h : ∀ acc : List HeapNode,
      List.Perm
        (heapChars (frequency.foldl (fun heap p => heappush heap (HeapNode.leaf p.1 p.2)) acc))
        (heapChars acc ++ frequency.map Prod.fst) by
    have := h []
    simpa [heapChars] using this
  induction frequency with
  | nil => intro acc; simp [heapChars]
  | cons p rest ih =>
    intro acc
    rw [List.foldl_cons]
    have h1 := ih (heappush acc (HeapNode.leaf p.1 p.2))
    have h2 : List.Perm (heapChars (heappush acc (HeapNode.leaf p.1 p.2)))
        (heapChars (HeapNode.leaf p.1 p.2 :: acc)) :=
      heapChars_perm (heappush_perm acc (HeapNode.leaf p.1 p.2))
    have h3 : heapChars (HeapNode.leaf p.1 p.2 :: acc) = p.1 :: heapChars acc := rfl
    have h4 : List.Perm (heapChars (heappush acc (HeapNode.leaf p.1 p.2)) ++ rest.map Prod.fst)
        ((p.1 :: heapChars acc) ++ rest.map Prod.fst) := by
      rw [← h3]
      exact List.Perm.append_right _ h2
    have h5 : List.Perm ((p.1 :: heapChars acc) ++ rest.map Prod.fst)
        (heapChars acc ++ p.1 :: rest.map Prod.fst) := by
      show List.Perm (p.1 :: (heapChars acc ++ rest.map Prod.fst))
        (heapChars acc ++ p.1 :: rest.map Prod.fst)
      exact List.perm_middle.symm
    have h6 := h1.trans (h4.trans h5)
    simpa using h6

/-! ### Code generation lemmas -/

theorem make_codes_helper_chars (t : HeapNode) :
    ∀ pre : List Bool, (make_codes_helper t pre).map Prod.fst = leafChars t := by
  induction t with
  | leaf c f => intro pre; rfl
  | internal f l r ihl ihr =>
    intro pre
    simp [make_codes_helper, leafChars, ihl, ihr]

theorem make_codes_helper_pref (t : HeapNode) :
    ∀ (pre : List Bool) (p : Nat × List Bool), p ∈ make_codes_helper t pre →
      ∃ s, pre ++ s = p.2 := by
  induction t with
  | leaf c f =>
    intro pre p hp
    simp [make_codes_helper] at hp
    subst hp
    exact ⟨[], by simp⟩
  | internal f l r ihl ihr =>
    intro pre p hp
    rw [make_codes_helper, List.mem_append] at hp
    rcases hp with hp | hp
    · obtain ⟨s, hs⟩ := ihl _ p hp
      exact ⟨false :: s, by rw [← hs]; simp⟩
    · obtain ⟨s, hs⟩ := ihr _ p hp
      exact ⟨true :: s, by rw [← hs]; simp⟩

theorem pref_branch_disjoint (pre s₁ s₂ : List Bool) (b₁ b₂ : Bool) (hne : b₁ ≠ b₂) :
    ¬ Pref ((pre ++ [b₁]) ++ s₁) ((pre ++ [b₂]) ++ s₂) := by
  rintro ⟨u, hu⟩
  rw [List.append_assoc, List.append_assoc, List.append_assoc] at hu
  have h2 := List.append_cancel_left hu
  simp at h2
  exact hne h2.1

theorem make_codes_helper_pairwise (t : HeapNode) :
    ∀ pre : List Bool,
      List.Pairwise (fun a b : Nat × List Bool => ¬ Pref a.2 b.2 ∧ ¬ Pref b.2 a.2)
        (make_codes_helper t pre) := by
  induction t with
  | leaf c f => intro pre; simp [make_codes_helper]
  | internal f l r ihl ihr =>
    intro pre
    rw [make_codes_helper, List.pairwise_append]
    refine ⟨ihl _, ihr _, ?_⟩
    intro a ha b hb
    obtain ⟨s₁, hs₁⟩ := make_codes_helper_pref l _ a ha
    obtain ⟨s₂, hs₂⟩ := make_codes_helper_pref r _ b hb
    constructor
    · rw [← hs₁, ← hs₂]
      exact pref_branch_disjoint pre s₁ s₂ false true (by simp)
    · rw [← hs₁, ← hs₂]
      exact pref_branch_disjoint pre s₂ s₁ true false (by simp)

/-! ### Dict lemmas -/

theorem alookup_eq_none_iff {α β : Type} [DecidableEq α] :
    ∀ (d : List (α × β)) (k : α), alookup d k = none ↔ k ∉ d.map Prod.fst := by
  intro d
  induction d with
  | nil => intro k; simp [alookup]
  | cons p rest ih =>
    intro k
    match p with
    | (a, b) =>
      rw [alookup]
      by_cases hk : k = a
      · subst hk
        simp
      · rw [if_neg hk]
        simp [hk, ih]

theorem alookup_eq_some_iff_mem {α β : Type} [DecidableEq α] :
    ∀ (d : List (α × β)), (d.map Prod.fst).Nodup →
      ∀ (k : α) (v : β), (alookup d k = some v ↔ (k, v) ∈ d) := by
  intro d
  induction d with
  | nil => intro _ k v; simp [alookup]
  | cons p rest ih =>
    intro hnd k v
    match p with
    | (a, b) =>
      simp only [List.map_cons, List.nodup_cons] at hnd
      obtain ⟨hka, hrest⟩ := hnd
      rw [alookup]
      by_cases hk : k = a
      · subst hk
        rw [if_pos rfl]
        constructor
        · intro hs
          simp only [Option.some.injEq] at hs
          subst hs
          exact List.mem_cons_self _ _
        · intro hm
          rcases List.mem_cons.mp hm with heq | hmem
          · rw [(Prod.mk.injEq _ _ _ _).mp heq |>.2]
          · exact absurd (List.mem_map_of_mem Prod.fst hmem) hka
      · rw [if_neg hk]
        rw [ih hrest k v]
        constructor
        · intro hm
          exact List.mem_cons_of_mem _ hm
        · intro hm
          rcases List.mem_cons.mp hm with heq | hmem
          · exact absurd ((Prod.mk.injEq _ _ _ _).mp heq).1 hk
          · exact hmem

theorem foldl_dictUpd_fresh {α β : Type} [DecidableEq α] :
    ∀ (entries : List (α × β)) (acc : List (α × β)),
      ((acc ++ entries).map Prod.fst).Nodup →
      entries.foldl (fun d p => dictUpd d p.1 p.2) acc = acc ++ entries := by
  intro entries
  induction entries with
  | nil => intro acc _; simp
  | cons p rest ih =>
    intro acc hnd
    match p with
    | (k, v) =>
      rw [List.foldl_cons]
      have hkacc : k ∉ acc.map Prod.fst := by
        intro hk
        have : ¬ ((acc ++ (k, v) :: rest).map Prod.fst).Nodup := by
          rw [List.map_append, List.map_cons]
          intro hn
          have h1 := (List.nodup_append.mp hn).2.2
          exact h1 hk (List.mem_cons_self _ _)
        exact this hnd
      have hupd : dictUpd acc k v = acc ++ [(k, v)] := by
        rw [dictUpd]
        rw [(alookup_eq_none_iff acc k).mpr hkacc]
      rw [hupd]
      have hnd2 : (((acc ++ [(k, v)]) ++ rest).map Prod.fst).Nodup := by
        rw [List.append_assoc]
        simpa using hnd
      rw [ih (acc ++ [(k, v)]) hnd2, List.append_assoc]
      rfl

theorem dictOf_eq_self {α β : Type} [DecidableEq α] (entries : List (α × β))
    (hnd : (entries.map Prod.fst).Nodup) : dictOf entries = entries := by
  rw [dictOf]
  have := foldl_dictUpd_fresh entries [] (by simpa using hnd)
  simpa using this

/-! ### The two shipped copies compute the same functions -/

theorem mainpy_chunksLoop_eq :
    ∀ (fuel : Nat) (bits : List Bool), MainPy.chunksLoop fuel bits = chunksLoop fuel bits := by
  intro fuel
  induction fuel with
  | zero => intro bits; rfl
  | succ fuel ih =>
    intro bits
    rw [MainPy.chunksLoop, chunksLoop]
    simp only [ih]

theorem mainpy_make_codes_helper_eq (t : HeapNode) :
    ∀ code : List Bool, MainPy.make_codes_helper t code = make_codes_helper t code := by
  induction t with
  | leaf c f => intro code; rfl
  | internal f l r ihl ihr =>
    intro code
    rw [MainPy.make_codes_helper, make_codes_helper, ihl, ihr]

theorem mainpy_buildTreeLoop_eq :
    ∀ (fuel : Nat) (heap : List HeapNode),
      MainPy.buildTreeLoop fuel heap = buildTreeLoop fuel heap := by
  intro fuel
  induction fuel with
  | zero => intro heap; rfl
  | succ fuel ih =>
    intro heap
    rw [MainPy.buildTreeLoop, buildTreeLoop]
    by_cases hb : 1 < heap.length
    · rw [if_pos hb, if_pos hb]
      cases h1 : heappop heap with
      | none => rfl
      | some pr1 =>
        obtain ⟨n1, heap1⟩ := pr1
        dsimp only
        cases h2 : heappop heap1 with
        | none => rfl
        | some pr2 =>
          obtain ⟨n2, heap2⟩ := pr2
          dsimp only
          exact ih _
    · rw [if_neg hb, if_neg hb]

theorem mainpy_decodeLoop_eq (table : List (List Bool × Nat)) :
    ∀ (bits current_code : List Bool) (decoded : List Nat),
      MainPy.decodeLoop table bits current_code decoded =
        decodeLoop table bits current_code decoded := by
  intro bits
  induction bits with
  | nil => intro c d; rfl
  | cons b rest ih =>
    intro c d
    rw [MainPy.decodeLoop, decodeLoop]
    cases h : alookup table (c ++ [b]) with
    | none => exact ih _ _
    | some char => exact ih _ _

theorem mainpy_build_heap_eq (frequency : List (Nat × Nat)) :
    MainPy.build_heap frequency = build_heap frequency := rfl

theorem mainpy_build_tree_eq (heap : List HeapNode) :
    MainPy.build_tree heap = build_tree heap := by
  rw [MainPy.build_tree, build_tree, mainpy_buildTreeLoop_eq]

theorem mainpy_codes_dict_eq (root : HeapNode) :
    MainPy.codes_dict root = codes_dict root := by
  rw [MainPy.codes_dict, codes_dict, mainpy_make_codes_helper_eq]

theorem mainpy_reverse_dict_eq (root : HeapNode) :
    MainPy.reverse_dict root = reverse_dict root := by
  rw [MainPy.reverse_dict, reverse_dict, mainpy_make_codes_helper_eq]

theorem mainpy_get_encoded_text_eq (codes : List (Nat × List Bool)) (text : List Nat) :
    MainPy.get_encoded_text codes text = get_encoded_text codes text := rfl

theorem mainpy_pad_encoded_text_eq (e : List Bool) :
    MainPy.pad_encoded_text e = pad_encoded_text e := rfl

theorem mainpy_get_byte_array_eq (p : List Bool) :
    MainPy.get_byte_array p = get_byte_array p := by
  rw [MainPy.get_byte_array, get_byte_array, mainpy_chunksLoop_eq]

theorem mainpy_total_compressed_bits_eq (codes : List (Nat × List Bool))
    (frequency : List (Nat × Nat)) :
    MainPy.total_compressed_bits codes frequency = total_compressed_bits codes frequency := rfl

theorem mainpy_remove_padding_eq (p : List Bool) :
    MainPy.remove_padding p = remove_padding p := rfl

theorem mainpy_decode_text_eq (table : List (List Bool × Nat)) (e : List Bool) :
    MainPy.decode_text table e = decode_text table e := by
  rw [MainPy.decode_text, decode_text, mainpy_decodeLoop_eq]

theorem mainpy_compress_eq (text : List Nat) :
    MainPy.compress text = compress text := by
  rw [MainPy.compress, compress]
  by_cases h0 : text.length = 0
  · rw [if_pos h0, if_pos h0]
  · rw [if_neg h0, if_neg h0]
    simp only [mainpy_build_heap_eq, mainpy_build_tree_eq]
    cases hroot : build_tree (build_heap (make_frequency_dict text)) with
    | none => rfl
    | some root =>
      simp only [mainpy_codes_dict_eq, mainpy_total_compressed_bits_eq,
        mainpy_get_encoded_text_eq, mainpy_pad_encoded_text_eq,
        mainpy_get_byte_array_eq, mainpy_reverse_dict_eq]

theorem mainpy_decompress_eq (archive : Archive) :
    MainPy.decompress archive = decompress archive := by
  cases archive with
  | stored data => rfl
  | coded table payload =>
    rw [MainPy.decompress, decompress]
    simp only [mainpy_remove_padding_eq, mainpy_decode_text_eq]

/-! ### Claims -/

/-- Claim C1.  The claimed round-trip `decompress (compress buffer) = buffer`
for every buffer of length at least 1 fails on the code: for the buffer of
16 copies of byte `0x41` (= 65) the cost model picks the Coded framing, the
single symbol receives the empty codeword, the packed payload is a single
pad-count byte `0`, and `decompress` returns the empty buffer instead of
the original 16 bytes. -/
theorem c1_roundtrip_fails_single_symbol :
    compress (List.replicate 16 65) = Except.ok (Archive.coded [([], 65)] [0]) ∧
    decompress (Archive.coded [([], 65)] [0]) = [] ∧
    decompress (Archive.coded [([], 65)] [0]) ≠ List.replicate 16 65 := by
  decide

/-- Claim C2.  For a buffer of one repeated byte (20 copies of `0x41`) the
code-generation pass assigns the symbol the EMPTY codeword (length 0, not
the claimed single bit "0"): `make_codes_helper` records `current_code`
unchanged when the root itself is a leaf, with no special case.  The
resulting Coded archive decompresses to the empty buffer, so the claimed
exact round-trip fails as well. -/
theorem c2_single_symbol_empty_codeword :
    alookup (codes_dict_from (make_frequency_dict (List.replicate 20 65))) 65 =
      some [] ∧
    compress (List.replicate 20 65) = Except.ok (Archive.coded [([], 65)] [0]) ∧
    decompress (Archive.coded [([], 65)] [0]) ≠ List.replicate 20 65 := by
  decide

/-- Claim C3, counterexample.  `exText` compresses to the Coded archive
with table `exTable` and 7-byte payload `exPayload`.  Truncating the last
payload byte makes the decoded bit sequence end with the non-empty
accumulator `[true]`, which is not a codeword — exactly the claim's
precondition — yet `decompress` does not fail: it silently returns the
27-byte decoded prefix of the original 32-byte buffer as its result
(`decode_text` has no failure path at all). -/
theorem c3_corrupt_stream_counterexample :
    compress exText = Except.ok (Archive.coded exTable exPayload) ∧
    decode_leftover exTable
        (remove_padding
          ((exPayload.dropLast).foldl (fun acc b => acc ++ natToBits 8 b) [])) = [true] ∧
    alookup exTable [true] = none ∧
    decompress (Archive.coded exTable exPayload.dropLast) = exText.take 27 ∧
    exText.take 27 ≠ exText := by
  decide

/-- Claim C3, amended.  When the decoded bit sequence ends with a
non-empty accumulator that is not a valid codeword, `decompress` does not
fail with any error: the decoding loop simply ends, discarding the
leftover accumulator, and the greedily decoded prefix is returned as the
result — as on the truncated archive of the counterexample, where the
27-byte prefix is returned. -/
theorem c3_truncated_decode_amended :
    (∀ (table : List (List Bool × Nat)) (current_code : List Bool) (decoded : List Nat),
        decodeLoop table [] current_code decoded = (decoded, current_code)) ∧
    decompress (Archive.coded exTable exPayload.dropLast) = exText.take 27 :=
  ⟨fun _ _ _ => rfl, by decide⟩

/-- Claim C4.  For every frequency table (with distinct keys, as
`Counter` produces), the codewords generated by `make_codes_helper` are
pairwise prefix-free, and the `reverse_mapping` dict is the exact inverse
of the `codes` dict. -/
theorem c4_prefix_free_inverse (f : List (Nat × Nat))
    (hnodup : (f.map Prod.fst).Nodup) :
    List.Pairwise (fun a b : Nat × List Bool => ¬ Pref a.2 b.2 ∧ ¬ Pref b.2 a.2)
      (codes_list_from f) ∧
    ∀ (c : Nat) (w : List Bool),
      alookup (codes_dict_from f) c = some w ↔
        alookup (reverse_dict_from f) w = some c := by
  cases hroot : build_tree (build_heap f) with
  | none =>
    have hl : codes_list_from f = [] := by rw [codes_list_from, hroot]
    constructor
    · rw [hl]
      exact List.Pairwise.nil
    · intro c w
      rw [codes_dict_from, reverse_dict_from, hl]
      simp [dictOf, alookup]
  | some root =>
    have hl : codes_list_from f = make_codes_helper root [] := by
      rw [codes_list_from, hroot]
    have hpw : List.Pairwise
        (fun a b : Nat × List Bool => ¬ Pref a.2 b.2 ∧ ¬ Pref b.2 a.2)
        (codes_list_from f) := by
      rw [hl]
      exact make_codes_helper_pairwise root []
    refine ⟨hpw, ?_⟩
    have hchars : (codes_list_from f).map Prod.fst = leafChars root := by
      rw [hl]
      exact make_codes_helper_chars root []
    have hperm1 := build_tree_chars _ root hroot
    have hperm2 := build_heap_chars f
    have hkeys : ((codes_list_from f).map Prod.fst).Nodup := by
      rw [hchars]
      exact (hperm1.trans hperm2).nodup_iff.mpr hnodup
    have hcodes_ne : List.Pairwise (fun a b : Nat × List Bool => a.2 ≠ b.2)
        (codes_list_from f) := by
      refine hpw.imp ?_
      intro a b hab heq
      exact hab.1 ⟨[], by rw [List.append_nil, heq]⟩
    have hcodes : ((codes_list_from f).map Prod.snd).Nodup :=
      List.pairwise_map.mpr hcodes_ne
    have hd1 : codes_dict_from f = codes_list_from f := by
      rw [codes_dict_from]
      exact dictOf_eq_self _ hkeys
    have hswapkeys :
        (((codes_list_from f).map (fun p => (p.2, p.1))).map Prod.fst).Nodup := by
      rw [List.map_map]
      exact hcodes
    have hd2 : reverse_dict_from f = (codes_list_from f).map (fun p => (p.2, p.1)) := by
      rw [reverse_dict_from]
      exact dictOf_eq_self _ hswapkeys
    intro c w
    rw [hd1, hd2, alookup_eq_some_iff_mem _ hkeys c w,
      alookup_eq_some_iff_mem _ hswapkeys w c]
    constructor
    · intro hm
      exact List.mem_map_of_mem _ hm
    · intro hm
      obtain ⟨p, hp, hpe⟩ := List.mem_map.mp hm
      have hpcw : p = (c, w) := by
        have h1 := ((Prod.mk.injEq _ _ _ _).mp hpe).1
        have h2 := ((Prod.mk.injEq _ _ _ _).mp hpe).2
        exact Prod.ext h2 h1
      rwa [hpcw] at hp

/-- Witness for C4 at the two-symbol frequency table `A ↦ 2, B ↦ 1`. -/
theorem c4_prefix_free_inverse_witness :
    (([((65 : Nat), (2 : Nat)), (66, 1)].map Prod.fst).Nodup) ∧
    (List.Pairwise (fun a b : Nat × List Bool => ¬ Pref a.2 b.2 ∧ ¬ Pref b.2 a.2)
        (codes_list_from [(65, 2), (66, 1)]) ∧
      ∀ (c : Nat) (w : List Bool),
        alookup (codes_dict_from [(65, 2), (66, 1)]) c = some w ↔
          alookup (reverse_dict_from [(65, 2), (66, 1)]) w = some c) :=
  ⟨by decide, c4_prefix_free_inverse [(65, 2), (66, 1)] (by decide)⟩

/-- Claim C5.  `pad_encoded_text` appends `(8 - bitlen % 8) % 8` zero
bits, prepends the 8-bit pad count, the result is byte-aligned, and the
pad count `remove_padding` reads back equals the one written, so
`remove_padding` inverts `pad_encoded_text` exactly. -/
theorem c5_padding_correct (e : List Bool) :
    pad_encoded_text e =
      natToBits 8 ((8 - e.length % 8) % 8) ++ e ++
        List.replicate ((8 - e.length % 8) % 8) false ∧
    (pad_encoded_text e).length % 8 = 0 ∧
    bitsToNat ((pad_encoded_text e).take 8) = (8 - e.length % 8) % 8 ∧
    remove_padding (pad_encoded_text e) = e :=
  ⟨pad_encoded_text_eq e, pad_encoded_text_length_mod e,
    pad_count_read_eq_written e, remove_padding_pad e⟩

/-- Claim C6.  Whenever the cost estimate is at least `8 × input length`,
`compress` emits the Stored framing: the 5-byte ASCII marker `HUFF0`
followed by the raw input, `input length + 5` bytes in total. -/
theorem c6_stored_fallback (text : List Nat) (hne : text ≠ [])
    (hest : total_compressed_bits (codes_dict_from (make_frequency_dict text))
        (make_frequency_dict text) ≥ text.length * 8) :
    compress text = Except.ok (Archive.stored text) ∧
    stored_bytes text = [72, 85, 70, 70, 48] ++ text ∧
    (stored_bytes text).length = text.length + 5 := by
  have h0 : ¬ text.length = 0 := by
    intro h
    exact hne (List.length_eq_zero.mp h)
  have hfne : make_frequency_dict text ≠ [] := make_frequency_dict_ne_nil text hne
  have hhne : build_heap (make_frequency_dict text) ≠ [] := by
    intro h
    have hbl := build_heap_length (make_frequency_dict text)
    rw [h] at hbl
    simp only [List.length_nil] at hbl
    exact hfne (List.length_eq_zero.mp hbl.symm)
  obtain ⟨root, hroot⟩ := build_tree_isSome _ hhne
  have hcd : codes_dict_from (make_frequency_dict text) = codes_dict root := by
    rw [codes_dict_from, codes_list_from, hroot, codes_dict]
  rw [hcd] at hest
  refine ⟨?_, rfl, ?_⟩
  · simp only [compress, if_neg h0, hroot]
    rw [if_pos hest]
  · simp [stored_bytes]

/-- Witness for C6 at the high-entropy 4-byte input `[0x9F, 0x02, 0xE1,
0x7A]`, whose estimate (204 bits) exceeds its size (32 bits) and which
therefore becomes a 9-byte Stored archive. -/
theorem c6_stored_fallback_witness :
    compress [159, 2, 225, 122] = Except.ok (Archive.stored [159, 2, 225, 122]) ∧
    stored_bytes [159, 2, 225, 122] = [72, 85, 70, 70, 48] ++ [159, 2, 225, 122] ∧
    (stored_bytes [159, 2, 225, 122]).length = [159, 2, 225, 122].length + 5 :=
  c6_stored_fallback [159, 2, 225, 122] (by decide) (by decide)

/-- Claim C7.  Compressing the empty buffer fails with `EmptyInput` and
produces no archive. -/
theorem c7_empty_input :
    compress [] = Except.error HuffErr.emptyInput := rfl

/-- Claim C8, counterexample.  `HeapNode` carries only `char`, `freq`,
`left`, `right` — there is no creation index — and `__lt__` compares
frequencies only, so equal-frequency ties are resolved by `heapq`'s array
positions, not by insertion order: for the frequency table built from
`"ABCD"` (four symbols, each of frequency 1), the second pop returns the
leaf for `C` (= 67), although the leaf for `B` (= 66), of equal
frequency, was inserted earlier. -/
theorem c8_no_insertion_order_tiebreak :
    make_frequency_dict [65, 66, 67, 68] = [(65, 1), (66, 1), (67, 1), (68, 1)] ∧
    heappop (build_heap [(65, 1), (66, 1), (67, 1), (68, 1)]) =
      some (HeapNode.leaf 65 1,
        [HeapNode.leaf 67 1, HeapNode.leaf 66 1, HeapNode.leaf 68 1]) ∧
    heappop [HeapNode.leaf 67 1, HeapNode.leaf 66 1, HeapNode.leaf 68 1] =
      some (HeapNode.leaf 67 1, [HeapNode.leaf 66 1, HeapNode.leaf 68 1]) ∧
    (HeapNode.leaf 67 1).freq = (HeapNode.leaf 66 1).freq ∧
    HeapNode.leaf 67 1 ≠ HeapNode.leaf 66 1 := by
  decide

/-- Claim C8, amended.  The queue orders nodes by frequency only (ties
fall to `heapq`'s positional behaviour, not insertion order); the
concrete scenario still holds: for `"AAAABBBCCD"` the symbol `A`
receives a codeword of length 1, no longer than any other symbol's, and
compress-then-decompress returns the buffer unchanged (via the Stored
framing, which the cost model selects for this input). -/
theorem c8_freq_only_order_concrete :
    ((alookup (codes_dict_from (make_frequency_dict
        [65, 65, 65, 65, 66, 66, 66, 67, 67, 68])) 65).getD []).length = 1 ∧
    (∀ c ∈ ([66, 67, 68] : List Nat),
      ((alookup (codes_dict_from (make_frequency_dict
          [65, 65, 65, 65, 66, 66, 66, 67, 67, 68])) 65).getD []).length ≤
        ((alookup (codes_dict_from (make_frequency_dict
          [65, 65, 65, 65, 66, 66, 66, 67, 67, 68])) c).getD []).length) ∧
    compress [65, 65, 65, 65, 66, 66, 66, 67, 67, 68] =
      Except.ok (Archive.stored [65, 65, 65, 65, 66, 66, 66, 67, 67, 68]) ∧
    decompress (Archive.stored [65, 65, 65, 65, 66, 66, 66, 67, 67, 68]) =
      [65, 65, 65, 65, 66, 66, 66, 67, 67, 68] := by
  decide

/-- Claim C9.  Every bit string `pad_encoded_text` produces has length a
multiple of 8, so `get_byte_array` never takes its
`PackingAlignmentError` branch (the `exit(0)`) on the compress path. -/
theorem c9_packing_alignment_unreachable (e : List Bool) :
    ∃ bs, get_byte_array (pad_encoded_text e) = Except.ok bs := by
  have h : ¬ (pad_encoded_text e).length % 8 ≠ 0 := by
    simp [pad_encoded_text_length_mod e]
  rw [get_byte_array, if_neg h]
  exact ⟨_, rfl⟩

/-- Claim C10.  The `HuffmanCoding` class of `huffman.py` and the one of
`main.py` are behaviorally equivalent: `compress` and `decompress`
(together with every helper they call, shown equal in the lemmas above)
return identical results on every input. -/
theorem c10_copies_equivalent :
    (∀ text : List Nat, MainPy.compress text = compress text) ∧
    (∀ archive : Archive, MainPy.decompress archive = decompress archive) :=
  ⟨mainpy_compress_eq, mainpy_decompress_eq⟩

end Huff
